import Mathlib

/-!
Verification of the stable-key transactional arena (`StableVec` in
`src/lib_tests/src/stable_vec.rs`) against its specification.

The Rust type `StableVec<T> { slots: Vec<Option<T>>, free_list: Vec<Key> }`
is embedded as a Lean structure holding two lists in the same order as the
vectors.  `Vec::push` appends at the end of the list, `Vec::pop` removes the
last element.  A Rust index panic (`self.slots[k]` with `k` out of range) is
embedded as an `Except.error` carrying the panic's data: the vector length
and the offending index, exactly the two numbers Rust's index panic message
reports ("index out of bounds: the len is {len} but the index is {index}").
-/

/-- A key into the arena: `pub type Key = usize;`. -/
abbrev Key := Nat

/-- The data carried by a fatal failure (a Rust panic) raised by an
out-of-range vector index: the vector's length and the offending index. -/
inductive Panic where
  | indexOutOfBounds (len index : Nat)
deriving DecidableEq, Repr

/-- `StableVec<T>`: a growable sequence of optional slots plus a free list
of reclaimed slot indices (stack discipline at the list's end). -/
structure StableVec (T : Type) where
  slots : List (Option T)
  free_list : List Nat
deriving DecidableEq, Repr

namespace StableVec

variable {T : Type}

/-- `StableVec::new`: empty slots, empty free list. -/
def new : StableVec T := ⟨[], []⟩

/-- `StableVec::insert`: pop the most recently pushed free key and write the
value into that slot (the write `self.slots[key] = Some(v)` panics when the
key is out of range), otherwise append a fresh slot at the end. -/
def insert (s : StableVec T) (v : T) : Except Panic (StableVec T × Nat) :=
  match s.free_list.getLast? with
  | some key =>
    match s.slots[key]? with
    | some _ => .ok (⟨s.slots.set key (some v), s.free_list.dropLast⟩, key)
    | none => .error (.indexOutOfBounds s.slots.length key)
  | none => .ok (⟨s.slots ++ [some v], s.free_list⟩, s.slots.length)

/-- `StableVec::insert_at`: drop the first occurrence of `k` from the free
list, then `self.slots[k].replace(v)` — which panics when `k` is out of
range, and otherwise returns the slot's previous contents. -/
def insert_at (s : StableVec T) (k : Nat) (v : T) : Except Panic (StableVec T × Option T) :=
  match s.slots[k]? with
  | some slot => .ok (⟨s.slots.set k (some v), s.free_list.erase k⟩, slot)
  | none => .error (.indexOutOfBounds s.slots.length k)

/-- `StableVec::push_back`: unconditionally append a fresh slot. -/
def push_back (s : StableVec T) (v : T) : StableVec T × Nat :=
  (⟨s.slots ++ [some v], s.free_list⟩, s.slots.length)

/-- `StableVec::remove`: `self.slots[k]` panics when `k` is out of range;
otherwise, when the slot is occupied, push `k` on the free list, and in
either case `take()` the slot, returning its previous contents. -/
def remove (s : StableVec T) (k : Nat) : Except Panic (StableVec T × Option T) :=
  match s.slots[k]? with
  | some slot =>
    .ok (⟨s.slots.set k none,
          if slot.isSome then s.free_list ++ [k] else s.free_list⟩, slot)
  | none => .error (.indexOutOfBounds s.slots.length k)

/-- `StableVec::get`: bounds-checked, non-panicking lookup. -/
def get (s : StableVec T) (k : Nat) : Option T :=
  (s.slots[k]?).join

/-- `StableVec::len`: `self.slots.len() - self.free_list.len()`. -/
def len (s : StableVec T) : Nat :=
  s.slots.length - s.free_list.length

/-- `StableVec::keys`: `(0..self.slots.len()).filter(|&key| self.slots[key].is_some())`. -/
def keys (s : StableVec T) : List Nat :=
  (List.range s.slots.length).filter (fun k => (s.slots.getD k none).isSome)

/-- `StableVec::values`: `self.slots.iter().filter_map(Option::as_ref)`. -/
def values (s : StableVec T) : List T :=
  s.slots.filterMap id

/-- `StableVec::iter`: `self.keys().zip(self.values())`. -/
def iter (s : StableVec T) : List (Nat × T) :=
  s.keys.zip s.values

/-- `StableVec::is_empty`: `self.len() == 0`. -/
def is_empty (s : StableVec T) : Bool :=
  s.len == 0

/-- `StableVec::contains_key`: `key < self.slots.len() && self.slots[key].is_some()`. -/
def contains_key (s : StableVec T) (k : Nat) : Bool :=
  decide (k < s.slots.length) && (s.slots.getD k none).isSome

/-- `StableVec::drain_all`: clear the free list, drain every slot, and
yield `(key, value)` for each previously occupied slot in slot order. -/
def drain_all (s : StableVec T) : StableVec T × List (Nat × T) :=
  (⟨[], []⟩, s.slots.enum.filterMap (fun p => p.2.map (fun v => (p.1, v))))

/-- `impl PartialEq for StableVec`:
`self.slots.iter().zip(other.slots.iter()).all(|(x, y)| x == y)`. -/
def eq [DecidableEq T] (a b : StableVec T) : Bool :=
  (a.slots.zip b.slots).all (fun p => decide (p.1 = p.2))

/-- `impl FromIterator for StableVec`: start from `new` and `insert` each
value in sequence order. -/
def fromList (l : List T) : Except Panic (StableVec T) :=
  l.foldlM (fun s v => (insert s v).map Prod.fst) new

end StableVec

example : (StableVec.fromList [10, 20] : Except Panic (StableVec Nat)) =
    .ok ⟨[some 10, some 20], []⟩ := rfl

example : (StableVec.new : StableVec Nat).remove 0 =
    .error (.indexOutOfBounds 0 0) := rfl

/-- Modelled from the spec: the `Transaction` type is referenced by
`StableVec::transaction` and `StableVec::with_transaction` but its definition
is not among the reviewed sources.  Per §4.2 the transaction exposes the same
mutating operations as the Arena; a batch of mutations performed through a
transaction is a sequence of these operations. -/
inductive TxOp (T : Type) where
  | insert (v : T)
  | insert_at (k : Nat) (v : T)
  | remove (k : Nat)
  | push_back (v : T)
deriving DecidableEq, Repr

/-- Modelled from the spec: one inversion record of the missing
`Transaction`'s undo log (§4.2).  `removeKey k` inverts an insert that
returned key `k`; `restoreAt k p` inverts `insert_at(k, ·)` whose previous
contents were `p`; `reinsert k v` inverts `remove(k)` that removed `v`. -/
inductive UndoRec (T : Type) where
  | removeKey (k : Nat)
  | restoreAt (k : Nat) (p : Option T)
  | reinsert (k : Nat) (v : Option T)
deriving DecidableEq, Repr

namespace StableVec

variable {T : Type}

/-- Modelled from the spec: replaying one inversion record of the missing
`Transaction` type (§4.2): "insert(v) → key k: on rollback, remove k";
"insert_at(k, v) → previous p: on rollback, if p was some value,
insert_at(k, p); else remove(k)"; "remove(k) → removed value v (if any): on
rollback, if v was some value, insert_at(k, v)". -/
def applyUndo (s : StableVec T) : UndoRec T → Except Panic (StableVec T)
  | .removeKey k => (s.remove k).map Prod.fst
  | .restoreAt k (some p) => (s.insert_at k p).map Prod.fst
  | .restoreAt k none => (s.remove k).map Prod.fst
  | .reinsert k (some v) => (s.insert_at k v).map Prod.fst
  | .reinsert k none => .ok s

/-- Modelled from the spec: one mutating call through the missing
`Transaction` type (§4.2) — applied immediately to the underlying Arena and
paired with its inversion record for the undo log. -/
def applyTxOp (s : StableVec T) : TxOp T → Except Panic (StableVec T × UndoRec T)
  | .insert v => (s.insert v).map (fun p => (p.1, .removeKey p.2))
  | .insert_at k v => (s.insert_at k v).map (fun p => (p.1, .restoreAt k p.2))
  | .remove k => (s.remove k).map (fun p => (p.1, .reinsert k p.2))
  | .push_back v => .ok ((s.push_back v).1, .removeKey (s.push_back v).2)

/-- Modelled from the spec: the batch of mutating calls a caller performs
through the missing `Transaction` type, in order; each call is applied at
once and its inversion record appended to the undo log (§4.2). -/
def runOps (s : StableVec T) : List (TxOp T) → Except Panic (StableVec T × List (UndoRec T))
  | [] => .ok (s, [])
  | op :: rest => do
    let (s₁, r) ← applyTxOp s op
    let (t, log) ← runOps s₁ rest
    pure (t, r :: log)

/-- Modelled from the spec: `Transaction::rollback` of the missing
`Transaction` type "replays the undo log in reverse order of recording"
(§4.2). -/
def rollback (s : StableVec T) (log : List (UndoRec T)) : Except Panic (StableVec T) :=
  log.reverse.foldlM applyUndo s

/-- Modelled from the spec: `StableVec::with_transaction` applied to a
caller-supplied `f` that fails — the missing `Transaction` type is modelled
by the batch `ops` that `f` performs and the failure value `e` it returns;
the source (`with_transaction`) then calls `trx.rollback()` and propagates
`f`'s result unchanged. -/
def with_transaction_fail {E : Type} (s : StableVec T) (ops : List (TxOp T)) (e : E) :
    Except Panic (StableVec T × E) := do
  let (t, log) ← runOps s ops
  let s' ← rollback t log
  pure (s', e)

/-- The free-list well-formedness invariant of the data model (§3): no key
occurs twice in the free list, every free-list key denotes an in-range
vacant slot, and every vacant slot's key is in the free list. -/
def Inv (s : StableVec T) : Prop :=
  s.free_list.Nodup ∧
  (∀ k ∈ s.free_list, s.slots[k]? = some none) ∧
  (∀ k, s.slots[k]? = some none → k ∈ s.free_list)

/-- How a rolled-back Arena relates to the pre-transaction Arena: every
pre-existing slot holds exactly its old contents, any slots allocated during
the transaction remain as trailing vacant slots, and the free list holds
exactly the old free keys plus the freshly allocated keys, without
duplicates. -/
def RollbackRel (s s' : StableVec T) : Prop :=
  s.slots.length ≤ s'.slots.length ∧
  (∀ k, k < s.slots.length → s'.slots[k]? = s.slots[k]?) ∧
  (∀ k, s.slots.length ≤ k → k < s'.slots.length → s'.slots[k]? = some none) ∧
  s'.free_list.Nodup ∧
  (∀ k, k ∈ s'.free_list ↔ (k ∈ s.free_list ∨ (s.slots.length ≤ k ∧ k < s'.slots.length)))

/-- States reachable from the empty Arena by the public mutating operations
(a panicking call leaves no resulting state, so only successful calls step). -/
inductive Reachable : StableVec T → Prop where
  | new : Reachable new
  | insert {s t : StableVec T} {v : T} {k : Nat} :
      Reachable s → s.insert v = .ok (t, k) → Reachable t
  | insert_at {s t : StableVec T} {k : Nat} {v : T} {p : Option T} :
      Reachable s → s.insert_at k v = .ok (t, p) → Reachable t
  | push_back {s t : StableVec T} {v : T} {k : Nat} :
      Reachable s → s.push_back v = (t, k) → Reachable t
  | remove {s t : StableVec T} {k : Nat} {p : Option T} :
      Reachable s → s.remove k = .ok (t, p) → Reachable t
  | drain_all {s : StableVec T} :
      Reachable s → Reachable (s.drain_all).1

/-! ### List helpers -/

lemma getLast?_decomp {l : List Nat} {k : Nat} (h : l.getLast? = some k) :
    l = l.dropLast ++ [k] := by
  rcases List.eq_nil_or_concat l with rfl | ⟨l', b, rfl⟩
  · simp at h
  · rw [List.concat_eq_append] at *
    rw [List.getLast?_concat] at h
    rw [List.dropLast_concat]
    simp_all

lemma set_getElem?_self {α : Type _} {l : List α} {k : Nat} {a : α}
    (h : l[k]? = some a) : l.set k a = l := by
  induction l generalizing k with
  | nil => simp at h
  | cons x xs ih =>
    cases k with
    | zero => simp_all
    | succ n =>
      simp only [List.getElem?_cons_succ] at h
      simp [List.set, ih h]

/-! ### Invariant preservation -/

lemma inv_new : Inv (new : StableVec T) := by
  refine ⟨List.nodup_nil, ?_, ?_⟩ <;> simp [new]

lemma inv_insert {s s₁ : StableVec T} {v : T} {k : Nat}
    (hinv : Inv s) (h : s.insert v = .ok (s₁, k)) : Inv s₁ := by
  obtain ⟨hnd, hmem, hvac⟩ := hinv
  cases hfl : s.free_list.getLast? with
  | none =>
    have hfl' : s.free_list = [] := List.getLast?_eq_none_iff.mp hfl
    simp only [insert, hfl] at h
    obtain ⟨rfl, rfl⟩ : (⟨s.slots ++ [some v], s.free_list⟩ : StableVec T) = s₁ ∧
        s.slots.length = k := by simpa using h
    refine ⟨by simp [hfl'], by simp [hfl'], ?_⟩
    intro j hj
    simp only [List.getElem?_append] at hj
    split at hj
    · exact absurd (hvac j hj) (by simp [hfl'])
    · cases hn : j - s.slots.length with
      | zero => rw [hn] at hj; simp at hj
      | succ m => rw [hn] at hj; simp at hj
  | some key =>
    cases hsl : s.slots[key]? with
    | none => simp [insert, hfl, hsl] at h
    | some slot =>
      simp only [insert, hfl, hsl] at h
      obtain ⟨rfl, rfl⟩ : (⟨s.slots.set key (some v), s.free_list.dropLast⟩ : StableVec T) = s₁ ∧
          key = k := by simpa using h
      have hdec : s.free_list = s.free_list.dropLast ++ [key] := getLast?_decomp hfl
      have hkey_not : key ∉ s.free_list.dropLast := by
        have := hnd
        rw [hdec, List.nodup_append] at this
        intro hc
        exact this.2.2 hc (by simp)
      refine ⟨(List.dropLast_sublist s.free_list).nodup hnd, ?_, ?_⟩
      · intro j hj
        have hjfl : j ∈ s.free_list := (List.dropLast_sublist s.free_list).subset hj
        have hne : key ≠ j := fun hc => hkey_not (hc ▸ hj)
        simpa [List.getElem?_set_ne hne] using hmem j hjfl
      · intro j hj
        have hklt : key < s.slots.length := by
          rcases List.getElem?_eq_some.mp hsl with ⟨hlt, _⟩
          exact hlt
        by_cases hjk : j = key
        · subst hjk
          rw [List.getElem?_set_self (by simpa using hklt)] at hj
          simp at hj
        · rw [List.getElem?_set_ne (fun hc => hjk hc.symm)] at hj
          have := hvac j hj
          rw [hdec] at this
          rcases List.mem_append.mp this with h' | h'
          · exact h'
          · simp at h'
            exact absurd h' hjk

lemma inv_insert_at {s s₁ : StableVec T} {k : Nat} {v : T} {p : Option T}
    (hinv : Inv s) (h : s.insert_at k v = .ok (s₁, p)) : Inv s₁ := by
  obtain ⟨hnd, hmem, hvac⟩ := hinv
  cases hsl : s.slots[k]? with
  | none => simp [insert_at, hsl] at h
  | some slot =>
    simp only [insert_at, hsl] at h
    obtain ⟨rfl, rfl⟩ : (⟨s.slots.set k (some v), s.free_list.erase k⟩ : StableVec T) = s₁ ∧
        slot = p := by simpa using h
    have hklt : k < s.slots.length := by
      rcases List.getElem?_eq_some.mp hsl with ⟨hlt, _⟩
      exact hlt
    refine ⟨hnd.erase k, ?_, ?_⟩
    · intro j hj
      have hj' := (hnd.mem_erase_iff).mp hj
      rw [List.getElem?_set_ne (fun hc => hj'.1 hc.symm)]
      exact hmem j hj'.2
    · intro j hj
      by_cases hjk : j = k
      · subst hjk
        rw [List.getElem?_set_self hklt] at hj
        simp at hj
      · rw [List.getElem?_set_ne (fun hc => hjk hc.symm)] at hj
        exact (hnd.mem_erase_iff).mpr ⟨hjk, hvac j hj⟩

lemma inv_remove {s s₁ : StableVec T} {k : Nat} {p : Option T}
    (hinv : Inv s) (h : s.remove k = .ok (s₁, p)) : Inv s₁ := by
  obtain ⟨hnd, hmem, hvac⟩ := hinv
  cases hsl : s.slots[k]? with
  | none => simp [remove, hsl] at h
  | some slot =>
    simp only [remove, hsl] at h
    obtain ⟨rfl, rfl⟩ : (⟨s.slots.set k none,
        if slot.isSome then s.free_list ++ [k] else s.free_list⟩ : StableVec T) = s₁ ∧
        slot = p := by simpa using h
    have hklt : k < s.slots.length := by
      rcases List.getElem?_eq_some.mp hsl with ⟨hlt, _⟩
      exact hlt
    cases slot with
    | none =>
      have hkfl : k ∈ s.free_list := hvac k hsl
      refine ⟨hnd, ?_, ?_⟩
      · intro j hj
        by_cases hjk : j = k
        · subst hjk
          rw [List.getElem?_set_self hklt]
        · rw [List.getElem?_set_ne (fun hc => hjk hc.symm)]
          exact hmem j hj
      · intro j hj
        by_cases hjk : j = k
        · exact hjk ▸ hkfl
        · rw [List.getElem?_set_ne (fun hc => hjk hc.symm)] at hj
          exact hvac j hj
    | some w =>
      have hkfl : k ∉ s.free_list := fun hc => by
        have := hmem k hc
        rw [hsl] at this
        simp at this
      refine ⟨?_, ?_, ?_⟩
      · simp only [Option.isSome_some, if_true]
        rw [List.nodup_append]
        exact ⟨hnd, List.nodup_singleton _, by
          intro a ha hb
          simp at hb
          exact hkfl (hb ▸ ha)⟩
      · intro j hj
        simp only [Option.isSome_some, if_true, List.mem_append] at hj
        rcases hj with hj | hj
        · have hjk : j ≠ k := fun hc => hkfl (hc ▸ hj)
          rw [List.getElem?_set_ne (fun hc => hjk hc.symm)]
          exact hmem j hj
        · simp at hj
          subst hj
          rw [List.getElem?_set_self hklt]
      · intro j hj
        simp only [Option.isSome_some, if_true, List.mem_append]
        by_cases hjk : j = k
        · right; simp [hjk]
        · rw [List.getElem?_set_ne (fun hc => hjk hc.symm)] at hj
          exact Or.inl (hvac j hj)

lemma inv_push_back {s s₁ : StableVec T} {v : T} {k : Nat}
    (hinv : Inv s) (h : s.push_back v = (s₁, k)) : Inv s₁ := by
  obtain ⟨hnd, hmem, hvac⟩ := hinv
  obtain ⟨rfl, rfl⟩ : (⟨s.slots ++ [some v], s.free_list⟩ : StableVec T) = s₁ ∧
      s.slots.length = k := by simpa [push_back] using h
  refine ⟨hnd, ?_, ?_⟩
  · intro j hj
    have := hmem j hj
    have hjlt : j < s.slots.length := by
      rcases List.getElem?_eq_some.mp this with ⟨hlt, _⟩
      exact hlt
    rw [List.getElem?_append]
    simp [hjlt, this]
  · intro j hj
    rw [List.getElem?_append] at hj
    split at hj
    · exact hvac j hj
    · cases hn : j - s.slots.length with
      | zero => rw [hn] at hj; simp at hj
      | succ m => rw [hn] at hj; simp at hj

lemma inv_drain_all {s : StableVec T} : Inv (s.drain_all).1 := by
  refine ⟨List.nodup_nil, ?_, ?_⟩ <;> simp [drain_all]

/-- Every reachable state satisfies the free-list invariant. -/
lemma reachable_inv {s : StableVec T} (h : Reachable s) : Inv s := by
  induction h with
  | new => exact inv_new
  | insert _ hstep ih => exact inv_insert ih hstep
  | insert_at _ hstep ih => exact inv_insert_at ih hstep
  | push_back _ hstep ih => exact inv_push_back ih hstep
  | remove _ hstep ih => exact inv_remove ih hstep
  | drain_all _ _ => exact inv_drain_all

/-! ### Rollback analysis -/

lemma lt_of_getElem?_some {α : Type _} {l : List α} {k : Nat} {a : α}
    (h : l[k]? = some a) : k < l.length := by
  rcases List.getElem?_eq_some.mp h with ⟨hlt, _⟩
  exact hlt

lemma rollbackRel_refl (s : StableVec T) (hnd : s.free_list.Nodup) : RollbackRel s s := by
  refine ⟨le_refl _, fun _ _ => rfl, ?_, hnd, ?_⟩
  · intro k h1 h2
    exfalso
    omega
  intro k
  constructor
  · exact fun h => Or.inl h
  · rintro (h | ⟨h1, h2⟩)
    · exact h
    · exact absurd h1 (by omega)

/-- Undoing the append of a fresh slot at the end of `s` (the no-free-key
branch of `insert`, and `push_back`): the logged `remove` of the fresh key
vacates the slot again and pushes the key on the free list. -/
lemma undo_fresh_append {s s₁' : StableVec T} {v : T}
    (hinv : Inv s)
    (hR : RollbackRel ⟨s.slots ++ [some v], s.free_list⟩ s₁') :
    ∃ s', applyUndo s₁' (.removeKey s.slots.length) = .ok s' ∧ RollbackRel s s' := by
  obtain ⟨hlen, hpre, hfresh, hnd', hmem⟩ := hR
  simp only [List.length_append, List.length_cons, List.length_nil] at hlen hpre hfresh hmem
  have hslot : s₁'.slots[s.slots.length]? = some (some v) := by
    rw [hpre s.slots.length (by omega)]
    simpa using List.getElem?_concat_length s.slots (some v)
  refine ⟨⟨s₁'.slots.set s.slots.length none, s₁'.free_list ++ [s.slots.length]⟩, ?_, ?_⟩
  · simp [applyUndo, remove, hslot, Except.map]
  have hnfl : s.slots.length ∉ s₁'.free_list := by
    intro hc
    rcases (hmem s.slots.length).mp hc with hc' | ⟨hc', _⟩
    · have := hinv.2.1 s.slots.length hc'
      rw [List.getElem?_eq_none (le_refl s.slots.length)] at this
      simp at this
    · omega
  refine ⟨?_, ?_, ?_, ?_, ?_⟩
  · simp only [List.length_set]
    omega
  · intro j hj
    have hne : s.slots.length ≠ j := by omega
    rw [List.getElem?_set_ne hne]
    rw [hpre j (by omega)]
    rw [List.getElem?_append]
    simp [hj]
  · intro j hj1 hj2
    simp only [List.length_set] at hj2
    by_cases hjn : j = s.slots.length
    · subst hjn
      rw [List.getElem?_set_self hj2]
    · rw [List.getElem?_set_ne (fun hc => hjn hc.symm)]
      exact hfresh j (by omega) hj2
  · rw [List.nodup_append]
    exact ⟨hnd', List.nodup_singleton _, by
      intro a ha hb
      simp at hb
      exact hnfl (hb ▸ ha)⟩
  · intro j
    simp only [List.mem_append, List.mem_singleton, List.length_set, hmem j]
    constructor
    · rintro ((hj | ⟨h1, h2⟩) | rfl)
      · exact Or.inl hj
      · exact Or.inr ⟨by omega, h2⟩
      · exact Or.inr ⟨le_refl _, by omega⟩
    · rintro (hj | ⟨h1, h2⟩)
      · exact Or.inl (Or.inl hj)
      · by_cases hjn : j = s.slots.length
        · exact Or.inr hjn
        · exact Or.inl (Or.inr ⟨by omega, h2⟩)

/-- Undoing one mutation performed through a transaction: given the
inversion record that `applyTxOp` paired with the mutation, replaying it on
any state related to the post-mutation state by `RollbackRel` succeeds and
yields a state related to the pre-mutation state. -/
lemma applyTxOp_rollback {s s₁ s₁' : StableVec T} {op : TxOp T} {r : UndoRec T}
    (hinv : Inv s) (h : applyTxOp s op = .ok (s₁, r)) (hR : RollbackRel s₁ s₁') :
    ∃ s', applyUndo s₁' r = .ok s' ∧ RollbackRel s s' := by
  cases op with
  | insert v =>
    cases hfl : s.free_list.getLast? with
    | none =>
      simp only [applyTxOp, insert, hfl, Except.map] at h
      obtain ⟨rfl, rfl⟩ : (⟨s.slots ++ [some v], s.free_list⟩ : StableVec T) = s₁ ∧
          UndoRec.removeKey s.slots.length = r := by simpa using h
      exact undo_fresh_append hinv hR
    | some key =>
      cases hsl : s.slots[key]? with
      | none => simp [applyTxOp, insert, hfl, hsl, Except.map] at h
      | some slot =>
        simp only [applyTxOp, insert, hfl, hsl, Except.map] at h
        obtain ⟨rfl, rfl⟩ : (⟨s.slots.set key (some v), s.free_list.dropLast⟩ : StableVec T) = s₁ ∧
            UndoRec.removeKey key = r := by simpa using h
        obtain ⟨hlen, hpre, hfresh, hnd', hmem⟩ := hR
        simp only [List.length_set] at hlen hpre hfresh hmem
        have hklt : key < s.slots.length := lt_of_getElem?_some hsl
        have hdec : s.free_list = s.free_list.dropLast ++ [key] := getLast?_decomp hfl
        have hkdl : key ∉ s.free_list.dropLast := by
          have := hinv.1
          rw [hdec, List.nodup_append] at this
          intro hc
          exact this.2.2 hc (by simp)
        have hkfl : key ∈ s.free_list := by rw [hdec]; simp
        have hslot' : s₁'.slots[key]? = some (some v) := by
          rw [hpre key hklt, List.getElem?_set_self hklt]
        have hknfl : key ∉ s₁'.free_list := by
          intro hc
          rcases (hmem key).mp hc with hc' | ⟨hc', _⟩
          · exact hkdl hc'
          · omega
        refine ⟨⟨s₁'.slots.set key none, s₁'.free_list ++ [key]⟩, ?_, ?_⟩
        · simp [applyUndo, remove, hslot', Except.map]
        refine ⟨?_, ?_, ?_, ?_, ?_⟩
        · simp only [List.length_set]; omega
        · intro j hj
          by_cases hjk : j = key
          · subst hjk
            have hlt2 : j < s₁'.slots.length := by omega
            rw [List.getElem?_set_self hlt2]
            exact (hinv.2.1 j hkfl).symm
          · rw [List.getElem?_set_ne (fun hc => hjk hc.symm)]
            rw [hpre j hj, List.getElem?_set_ne (fun hc => hjk hc.symm)]
        · intro j hj1 hj2
          simp only [List.length_set] at hj2
          have hne : key ≠ j := by omega
          rw [List.getElem?_set_ne hne]
          exact hfresh j hj1 hj2
        · rw [List.nodup_append]
          exact ⟨hnd', List.nodup_singleton _, by
            intro a ha hb
            simp at hb
            exact hknfl (hb ▸ ha)⟩
        · intro j
          simp only [List.mem_append, List.mem_singleton, List.length_set, hmem j]
          constructor
          · rintro ((hj | ⟨h1, h2⟩) | rfl)
            · exact Or.inl (hdec ▸ List.mem_append.mpr (Or.inl hj))
            · exact Or.inr ⟨h1, h2⟩
            · exact Or.inl hkfl
          · rintro (hj | ⟨h1, h2⟩)
            · rw [hdec] at hj
              rcases List.mem_append.mp hj with hj' | hj'
              · exact Or.inl (Or.inl hj')
              · simp at hj'
                exact Or.inr hj'
            · exact Or.inl (Or.inr ⟨h1, h2⟩)
  | push_back v =>
    simp only [applyTxOp, push_back, Except.ok.injEq, Prod.mk.injEq] at h
    obtain ⟨rfl, rfl⟩ : (⟨s.slots ++ [some v], s.free_list⟩ : StableVec T) = s₁ ∧
        UndoRec.removeKey s.slots.length = r := by simpa using h
    exact undo_fresh_append hinv hR
  | insert_at k v =>
    cases hsl : s.slots[k]? with
    | none => simp [applyTxOp, insert_at, hsl, Except.map] at h
    | some slot =>
      simp only [applyTxOp, insert_at, hsl, Except.map] at h
      obtain ⟨rfl, rfl⟩ : (⟨s.slots.set k (some v), s.free_list.erase k⟩ : StableVec T) = s₁ ∧
          UndoRec.restoreAt k slot = r := by simpa using h
      obtain ⟨hlen, hpre, hfresh, hnd', hmem⟩ := hR
      simp only [List.length_set] at hlen hpre hfresh hmem
      have hklt : k < s.slots.length := lt_of_getElem?_some hsl
      have hslot' : s₁'.slots[k]? = some (some v) := by
        rw [hpre k hklt, List.getElem?_set_self hklt]
      cases slot with
      | some pv =>
        have hkfl : k ∉ s.free_list := by
          intro hc
          have := hinv.2.1 k hc
          rw [hsl] at this
          simp at this
        have herase : s.free_list.erase k = s.free_list := List.erase_of_not_mem hkfl
        have hknfl : k ∉ s₁'.free_list := by
          intro hc
          rcases (hmem k).mp hc with hc' | ⟨hc', _⟩
          · rw [herase] at hc'
            exact hkfl hc'
          · omega
        refine ⟨⟨s₁'.slots.set k (some pv), s₁'.free_list.erase k⟩, ?_, ?_⟩
        · simp [applyUndo, insert_at, hslot', Except.map]
        rw [List.erase_of_not_mem hknfl]
        refine ⟨?_, ?_, ?_, hnd', ?_⟩
        · simp only [List.length_set]; omega
        · intro j hj
          by_cases hjk : j = k
          · subst hjk
            have hlt2 : j < s₁'.slots.length := by omega
            rw [List.getElem?_set_self hlt2, hsl]
          · rw [List.getElem?_set_ne (fun hc => hjk hc.symm)]
            rw [hpre j hj, List.getElem?_set_ne (fun hc => hjk hc.symm)]
        · intro j hj1 hj2
          simp only [List.length_set] at hj2
          have hne : k ≠ j := by omega
          rw [List.getElem?_set_ne hne]
          exact hfresh j hj1 hj2
        · intro j
          simp only [List.length_set, hmem j, herase]
      | none =>
        have hkfl : k ∈ s.free_list := hinv.2.2 k hsl
        have hknfl : k ∉ s₁'.free_list := by
          intro hc
          rcases (hmem k).mp hc with hc' | ⟨hc', _⟩
          · exact ((hinv.1.mem_erase_iff).mp hc').1 rfl
          · omega
        refine ⟨⟨s₁'.slots.set k none, s₁'.free_list ++ [k]⟩, ?_, ?_⟩
        · simp [applyUndo, remove, hslot', Except.map]
        refine ⟨?_, ?_, ?_, ?_, ?_⟩
        · simp only [List.length_set]; omega
        · intro j hj
          by_cases hjk : j = k
          · subst hjk
            have hlt2 : j < s₁'.slots.length := by omega
            rw [List.getElem?_set_self hlt2, hsl]
          · rw [List.getElem?_set_ne (fun hc => hjk hc.symm)]
            rw [hpre j hj, List.getElem?_set_ne (fun hc => hjk hc.symm)]
        · intro j hj1 hj2
          simp only [List.length_set] at hj2
          have hne : k ≠ j := by omega
          rw [List.getElem?_set_ne hne]
          exact hfresh j hj1 hj2
        · rw [List.nodup_append]
          exact ⟨hnd', List.nodup_singleton _, by
            intro a ha hb
            simp at hb
            exact hknfl (hb ▸ ha)⟩
        · intro j
          simp only [List.mem_append, List.mem_singleton, List.length_set, hmem j]
          constructor
          · rintro ((hj | ⟨h1, h2⟩) | rfl)
            · exact Or.inl ((hinv.1.mem_erase_iff).mp hj).2
            · exact Or.inr ⟨h1, h2⟩
            · exact Or.inl hkfl
          · rintro (hj | ⟨h1, h2⟩)
            · by_cases hjk : j = k
              · exact Or.inr hjk
              · exact Or.inl (Or.inl ((hinv.1.mem_erase_iff).mpr ⟨hjk, hj⟩))
            · exact Or.inl (Or.inr ⟨h1, h2⟩)
  | remove k =>
    cases hsl : s.slots[k]? with
    | none => simp [applyTxOp, remove, hsl, Except.map] at h
    | some slot =>
      simp only [applyTxOp, remove, hsl, Except.map] at h
      have hklt : k < s.slots.length := lt_of_getElem?_some hsl
      cases slot with
      | none =>
        obtain ⟨rfl, rfl⟩ : (⟨s.slots.set k none, s.free_list⟩ : StableVec T) = s₁ ∧
            UndoRec.reinsert k none = r := by simpa using h
        have hs₁ : (⟨s.slots.set k none, s.free_list⟩ : StableVec T) = s := by
          rw [set_getElem?_self hsl]
        rw [hs₁] at hR
        exact ⟨s₁', rfl, hR⟩
      | some w =>
        obtain ⟨rfl, rfl⟩ : (⟨s.slots.set k none, s.free_list ++ [k]⟩ : StableVec T) = s₁ ∧
            UndoRec.reinsert k (some w) = r := by simpa using h
        obtain ⟨hlen, hpre, hfresh, hnd', hmem⟩ := hR
        simp only [List.length_set] at hlen hpre hfresh hmem
        have hkfl : k ∉ s.free_list := by
          intro hc
          have := hinv.2.1 k hc
          rw [hsl] at this
          simp at this
        have hslot' : s₁'.slots[k]? = some none := by
          rw [hpre k hklt, List.getElem?_set_self hklt]
        refine ⟨⟨s₁'.slots.set k (some w), s₁'.free_list.erase k⟩, ?_, ?_⟩
        · simp [applyUndo, insert_at, hslot', Except.map]
        refine ⟨?_, ?_, ?_, hnd'.erase k, ?_⟩
        · simp only [List.length_set]; omega
        · intro j hj
          by_cases hjk : j = k
          · subst hjk
            have hlt2 : j < s₁'.slots.length := by omega
            rw [List.getElem?_set_self hlt2, hsl]
          · rw [List.getElem?_set_ne (fun hc => hjk hc.symm)]
            rw [hpre j hj, List.getElem?_set_ne (fun hc => hjk hc.symm)]
        · intro j hj1 hj2
          simp only [List.length_set] at hj2
          have hne : k ≠ j := by omega
          rw [List.getElem?_set_ne hne]
          exact hfresh j hj1 hj2
        · intro j
          rw [hnd'.mem_erase_iff]
          simp only [List.length_set, hmem j, List.mem_append, List.mem_singleton]
          constructor
          · rintro ⟨hjk, (hj | rfl) | ⟨h1, h2⟩⟩
            · exact Or.inl hj
            · exact absurd rfl hjk
            · exact Or.inr ⟨h1, h2⟩
          · rintro (hj | ⟨h1, h2⟩)
            · exact ⟨fun hc => hkfl (hc ▸ hj), Or.inl (Or.inl hj)⟩
            · exact ⟨by omega, Or.inr ⟨h1, h2⟩⟩

lemma rollback_nil (t : StableVec T) : rollback t [] = .ok t := rfl

lemma except_bind_ok {α β ε : Type _} (a : α) (f : α → Except ε β) :
    (Except.ok a : Except ε α) >>= f = f a := rfl

lemma except_bind_error {α β ε : Type _} (e : ε) (f : α → Except ε β) :
    (Except.error e : Except ε α) >>= f = .error e := rfl

lemma rollback_cons (t : StableVec T) (r : UndoRec T) (log : List (UndoRec T)) :
    rollback t (r :: log) = rollback t log >>= (fun s₁ => applyUndo s₁ r) := by
  simp [rollback, List.reverse_cons, List.foldlM_append, List.foldlM]

lemma inv_applyTxOp {s s₁ : StableVec T} {op : TxOp T} {r : UndoRec T}
    (hinv : Inv s) (h : applyTxOp s op = .ok (s₁, r)) : Inv s₁ := by
  cases op with
  | insert v =>
    cases hi : s.insert v with
    | error e => simp [applyTxOp, hi, Except.map] at h
    | ok p =>
      simp only [applyTxOp, hi, Except.map] at h
      obtain ⟨rfl, -⟩ : p.1 = s₁ ∧ UndoRec.removeKey p.2 = r := by simpa using h
      exact inv_insert hinv (show s.insert v = .ok (p.1, p.2) from hi)
  | insert_at k v =>
    cases hi : s.insert_at k v with
    | error e => simp [applyTxOp, hi, Except.map] at h
    | ok p =>
      simp only [applyTxOp, hi, Except.map] at h
      obtain ⟨rfl, -⟩ : p.1 = s₁ ∧ UndoRec.restoreAt k p.2 = r := by simpa using h
      exact inv_insert_at hinv (show s.insert_at k v = .ok (p.1, p.2) from hi)
  | remove k =>
    cases hi : s.remove k with
    | error e => simp [applyTxOp, hi, Except.map] at h
    | ok p =>
      simp only [applyTxOp, hi, Except.map] at h
      obtain ⟨rfl, -⟩ : p.1 = s₁ ∧ UndoRec.reinsert k p.2 = r := by simpa using h
      exact inv_remove hinv (show s.remove k = .ok (p.1, p.2) from hi)
  | push_back v =>
    simp only [applyTxOp] at h
    obtain ⟨rfl, -⟩ : (s.push_back v).1 = s₁ ∧ UndoRec.removeKey (s.push_back v).2 = r := by
      simpa using h
    exact inv_push_back hinv rfl

/-- Rolling back an arbitrary successfully-applied batch of transaction
mutations succeeds and yields a state `RollbackRel`-related to the
pre-transaction state. -/
lemma runOps_rollback : ∀ (ops : List (TxOp T)) (s t : StableVec T) (log : List (UndoRec T)),
    Inv s → runOps s ops = .ok (t, log) →
    ∃ s', rollback t log = .ok s' ∧ RollbackRel s s' := by
  intro ops
  induction ops with
  | nil =>
    intro s t log hinv h
    obtain ⟨rfl, rfl⟩ : s = t ∧ ([] : List (UndoRec T)) = log := by
      simpa [runOps] using h
    exact ⟨s, rollback_nil s, rollbackRel_refl s hinv.1⟩
  | cons op rest ih =>
    intro s t log hinv h
    cases hop : applyTxOp s op with
    | error e => simp [runOps, hop, except_bind_error] at h
    | ok p =>
      obtain ⟨s₁, r⟩ := p
      cases hrest : runOps s₁ rest with
      | error e => simp [runOps, hop, hrest, except_bind_ok, Except.map] at h
      | ok q =>
        obtain ⟨t', log'⟩ := q
        obtain ⟨rfl, rfl⟩ : t' = t ∧ r :: log' = log := by
          simpa [runOps, hop, hrest, except_bind_ok, Except.map] using h
        have hinv₁ := inv_applyTxOp hinv hop
        obtain ⟨s₁', hrb, hR⟩ := ih s₁ _ log' hinv₁ hrest
        obtain ⟨s', hundo, hR'⟩ := applyTxOp_rollback hinv hop hR
        refine ⟨s', ?_, hR'⟩
        rw [rollback_cons, hrb, except_bind_ok]
        exact hundo

/-! ### Iteration lemmas -/

lemma length_filter_partition {α : Type _} (p : α → Bool) (l : List α) :
    (l.filter p).length + (l.filter (fun a => !(p a))).length = l.length := by
  induction l with
  | nil => rfl
  | cons a l ih =>
    cases h : p a <;> simp only [List.filter_cons, h] <;> simp <;> omega

lemma keys_cons (o : Option T) (l : List (Option T)) (fl : List Nat) :
    keys ⟨o :: l, fl⟩ = (if o.isSome then [0] else []) ++ (keys ⟨l, fl⟩).map Nat.succ := by
  unfold keys
  simp only [List.length_cons]
  rw [List.range_succ_eq_map, List.filter_cons, List.filter_map]
  have hp : ((fun k => ((o :: l : List (Option T)).getD k none).isSome) ∘ Nat.succ) =
      fun k => ((l : List (Option T)).getD k none).isSome := by
    funext k
    simp [Function.comp, List.getD_cons_succ]
  rw [hp]
  cases o <;> simp [List.getD_cons_zero]

lemma values_cons (o : Option T) (l : List (Option T)) (fl : List Nat) :
    values ⟨o :: l, fl⟩ = (match o with | some v => v :: values ⟨l, fl⟩ | none => values ⟨l, fl⟩) := by
  cases o <;> simp [values, List.filterMap_cons]

lemma iter_cons (o : Option T) (l : List (Option T)) (fl : List Nat) :
    iter ⟨o :: l, fl⟩ = (match o with
      | some v => (0, v) :: (iter ⟨l, fl⟩).map (Prod.map Nat.succ id)
      | none => (iter ⟨l, fl⟩).map (Prod.map Nat.succ id)) := by
  cases o with
  | some v =>
    unfold iter
    rw [keys_cons, values_cons]
    simp only [Option.isSome_some, if_true, List.singleton_append, List.zip_cons_cons,
      List.zip_map_left]
  | none =>
    unfold iter
    rw [keys_cons, values_cons]
    simp only [Option.isSome_none, Bool.false_eq_true, if_false, List.nil_append,
      List.zip_map_left]

lemma mem_iter {s : StableVec T} {k : Nat} {v : T} :
    (k, v) ∈ iter s ↔ s.slots[k]? = some (some v) := by
  obtain ⟨l, fl⟩ := s
  induction l generalizing k with
  | nil => simp [iter, keys, values]
  | cons o l ih =>
    rw [iter_cons]
    have hmap : ((k, v) ∈ (iter ⟨l, fl⟩).map (Prod.map Nat.succ id)) ↔
        (∃ n, k = n + 1 ∧ (l : List (Option T))[n]? = some (some v)) := by
      constructor
      · intro hm
        rcases List.mem_map.mp hm with ⟨⟨q1, q2⟩, hmem, hpq⟩
        simp only [Prod.map, Nat.succ_eq_add_one, id_eq, Prod.mk.injEq] at hpq
        obtain ⟨hk, hv⟩ := hpq
        subst hv
        exact ⟨q1, hk.symm, ih.mp hmem⟩
      · rintro ⟨n, rfl, hn⟩
        exact List.mem_map.mpr ⟨(n, v), ih.mpr hn, rfl⟩
    cases o with
    | some w =>
      cases k with
      | zero =>
        simp only [List.mem_cons, hmap, List.getElem?_cons_zero, Option.some.injEq,
          Prod.mk.injEq]
        constructor
        · rintro (⟨-, rfl⟩ | ⟨n, hn, -⟩)
          · rfl
          · exact absurd hn.symm (Nat.succ_ne_zero n)
        · rintro rfl
          exact Or.inl (by simp)
      | succ m =>
        simp only [List.mem_cons, hmap, List.getElem?_cons_succ, Prod.mk.injEq]
        constructor
        · rintro (⟨h1, -⟩ | ⟨n, hn, h⟩)
          · exact absurd h1 (Nat.succ_ne_zero m)
          · obtain rfl : n = m := by omega
            exact h
        · intro h
          exact Or.inr ⟨m, rfl, h⟩
    | none =>
      cases k with
      | zero =>
        rw [hmap]
        simp only [List.getElem?_cons_zero]
        constructor
        · rintro ⟨n, hn, -⟩
          exact (Nat.succ_ne_zero n hn.symm).elim
        · intro h
          simp at h
      | succ m =>
        rw [hmap]
        simp only [List.getElem?_cons_succ]
        constructor
        · rintro ⟨n, hn, h⟩
          obtain rfl : n = m := by omega
          exact h
        · intro h
          exact ⟨m, rfl, h⟩

lemma iter_pairwise (s : StableVec T) :
    List.Pairwise (fun a b : Nat × T => a.1 < b.1) (iter s) := by
  obtain ⟨l, fl⟩ := s
  induction l with
  | nil => simp [iter, keys, values]
  | cons o l ih =>
    rw [iter_cons]
    have htail : List.Pairwise (fun a b : Nat × T => a.1 < b.1)
        ((iter ⟨l, fl⟩).map (Prod.map Nat.succ id)) := by
      rw [List.pairwise_map]
      exact ih.imp (by
        intro a b h
        simpa [Prod.map] using Nat.succ_lt_succ h)
    cases o with
    | some w =>
      refine List.Pairwise.cons ?_ htail
      intro p hp
      rcases List.mem_map.mp hp with ⟨q, _, rfl⟩
      simp [Prod.map]
    | none => exact htail

lemma keys_length_eq_values_length (s : StableVec T) :
    (keys s).length = (values s).length := by
  obtain ⟨l, fl⟩ := s
  induction l with
  | nil => rfl
  | cons o l ih =>
    rw [keys_cons, values_cons]
    cases o <;> simp [ih]

lemma keys_eq_map_fst (s : StableVec T) : s.keys = s.iter.map Prod.fst := by
  rw [iter, List.map_fst_zip _ _ (le_of_eq (keys_length_eq_values_length s))]

lemma values_eq_map_snd (s : StableVec T) : s.values = s.iter.map Prod.snd := by
  rw [iter, List.map_snd_zip _ _ (ge_of_eq (keys_length_eq_values_length s))]

lemma iter_length (s : StableVec T) : (iter s).length = (keys s).length := by
  rw [iter, List.length_zip, keys_length_eq_values_length s]
  exact Nat.min_self _

/-! ### Counting occupied and vacant slots -/

lemma free_list_perm_vacant {s : StableVec T} (hinv : Inv s) :
    s.free_list.Perm
      ((List.range s.slots.length).filter (fun k => !((s.slots.getD k none).isSome))) := by
  rw [List.perm_ext_iff_of_nodup hinv.1 ((List.nodup_range _).filter _)]
  intro k
  rw [List.mem_filter, List.mem_range]
  constructor
  · intro hk
    have h := hinv.2.1 k hk
    have hlt : k < s.slots.length := lt_of_getElem?_some h
    refine ⟨hlt, ?_⟩
    rw [List.getD_eq_getElem?_getD, h]
    rfl
  · rintro ⟨hlt, hvac⟩
    refine hinv.2.2 k ?_
    rw [List.getD_eq_getElem?_getD] at hvac
    rw [List.getElem?_eq_getElem hlt] at hvac ⊢
    rcases hget : s.slots[k] with _ | w
    · rfl
    · rw [hget] at hvac
      simp at hvac

lemma free_list_length_eq_vacant {s : StableVec T} (hinv : Inv s) :
    s.free_list.length =
      ((List.range s.slots.length).filter (fun k => !((s.slots.getD k none).isSome))).length :=
  (free_list_perm_vacant hinv).length_eq

lemma keys_length_add_free_length {s : StableVec T} (hinv : Inv s) :
    (keys s).length + s.free_list.length = s.slots.length := by
  rw [free_list_length_eq_vacant hinv]
  have := length_filter_partition
    (fun k => ((s.slots.getD k none).isSome)) (List.range s.slots.length)
  simpa [keys] using this

lemma free_list_length_le {s : StableVec T} (hinv : Inv s) :
    s.free_list.length ≤ s.slots.length := by
  have := keys_length_add_free_length hinv
  omega

lemma len_eq_keys_length {s : StableVec T} (hinv : Inv s) :
    s.len = (keys s).length := by
  have := keys_length_add_free_length hinv
  unfold len
  omega

/-! ### Drained pairs -/

lemma enumFrom_pairs_mem (l : List (Option T)) :
    ∀ (n k : Nat) (v : T),
      ((k, v) ∈ (List.enumFrom n l).filterMap (fun p => p.2.map (fun w => (p.1, w)))) ↔
        ∃ i, l[i]? = some (some v) ∧ k = n + i := by
  induction l with
  | nil => intro n k v; simp
  | cons o l ih =>
    intro n k v
    rw [show List.enumFrom n (o :: l) = (n, o) :: List.enumFrom (n + 1) l from rfl,
        List.filterMap_cons]
    cases o with
    | some w =>
      simp only [Option.map_some', List.mem_cons, Prod.mk.injEq, ih (n + 1)]
      constructor
      · rintro (⟨rfl, rfl⟩ | ⟨i, hi, rfl⟩)
        · exact ⟨0, by simp, by omega⟩
        · exact ⟨i + 1, by simpa using hi, by omega⟩
      · rintro ⟨i, hi, rfl⟩
        cases i with
        | zero =>
          simp only [List.getElem?_cons_zero, Option.some.injEq] at hi
          exact Or.inl ⟨by omega, hi.symm⟩
        | succ j =>
          simp only [List.getElem?_cons_succ] at hi
          exact Or.inr ⟨j, hi, by omega⟩
    | none =>
      simp only [Option.map_none', ih (n + 1)]
      constructor
      · rintro ⟨i, hi, rfl⟩
        exact ⟨i + 1, by simpa using hi, by omega⟩
      · rintro ⟨i, hi, rfl⟩
        cases i with
        | zero => simp at hi
        | succ j =>
          simp only [List.getElem?_cons_succ] at hi
          exact ⟨j, hi, by omega⟩

lemma enumFrom_pairs_sorted (l : List (Option T)) :
    ∀ n, List.Pairwise (fun a b : Nat × T => a.1 < b.1)
      ((List.enumFrom n l).filterMap (fun p => p.2.map (fun w => (p.1, w)))) := by
  induction l with
  | nil => intro n; simp
  | cons o l ih =>
    intro n
    rw [show List.enumFrom n (o :: l) = (n, o) :: List.enumFrom (n + 1) l from rfl,
        List.filterMap_cons]
    cases o with
    | some w =>
      simp only [Option.map_some']
      refine List.Pairwise.cons ?_ (ih (n + 1))
      rintro ⟨k2, v2⟩ hp
      rw [enumFrom_pairs_mem] at hp
      obtain ⟨i, -, rfl⟩ := hp
      show n < n + 1 + i
      omega
    | none =>
      simp only [Option.map_none']
      exact ih (n + 1)

lemma mem_drain_pairs {s : StableVec T} {k : Nat} {v : T} :
    (k, v) ∈ (s.drain_all).2 ↔ s.slots[k]? = some (some v) := by
  show (k, v) ∈ (List.enumFrom 0 s.slots).filterMap _ ↔ _
  rw [enumFrom_pairs_mem]
  constructor
  · rintro ⟨i, hi, rfl⟩
    simpa using hi
  · intro h
    exact ⟨k, h, by omega⟩

lemma drain_pairs_sorted (s : StableVec T) :
    List.Pairwise (fun a b : Nat × T => a.1 < b.1) (s.drain_all).2 :=
  enumFrom_pairs_sorted s.slots 0

/-! ### Equality as zip-all -/

lemma zip_all_eq_iff {α : Type _} [DecidableEq α] :
    ∀ (l₁ l₂ : List α),
      ((l₁.zip l₂).all fun p => decide (p.1 = p.2)) = true ↔
        ∀ i, i < min l₁.length l₂.length → l₁[i]? = l₂[i]? := by
  intro l₁
  induction l₁ with
  | nil => intro l₂; simp
  | cons x xs ih =>
    intro l₂
    cases l₂ with
    | nil => simp
    | cons y ys =>
      rw [List.zip_cons_cons, List.all_cons, Bool.and_eq_true, ih ys]
      simp only [decide_eq_true_eq]
      constructor
      · rintro ⟨hxy, hrest⟩ i hi
        cases i with
        | zero => simp [hxy]
        | succ n =>
          simp only [List.getElem?_cons_succ]
          refine hrest n ?_
          simp only [List.length_cons] at hi
          omega
      · intro hall
        constructor
        · have h0 := hall 0 (by simp only [List.length_cons]; omega)
          simpa using h0
        · intro i hi
          have hs := hall (i + 1) (by simp only [List.length_cons]; omega)
          simpa using hs

lemma eq_of_getElem?_agree [DecidableEq T] {a b : StableVec T}
    (h : ∀ i, i < min a.slots.length b.slots.length → a.slots[i]? = b.slots[i]?) :
    eq a b = true :=
  (zip_all_eq_iff a.slots b.slots).mpr h

lemma remove_ok_some {s s1 : StableVec T} {k : Nat} {v : T}
    (h : s.remove k = .ok (s1, some v)) :
    s.slots[k]? = some (some v) ∧ s1 = ⟨s.slots.set k none, s.free_list ++ [k]⟩ := by
  cases hsl : s.slots[k]? with
  | none => simp [remove, hsl] at h
  | some slot =>
    simp only [remove, hsl] at h
    obtain ⟨hstate, rfl⟩ : (⟨s.slots.set k none,
        if slot.isSome then s.free_list ++ [k] else s.free_list⟩ : StableVec T) = s1 ∧
        slot = some v := by simpa using h
    refine ⟨rfl, ?_⟩
    rw [← hstate]
    simp

/-! ### Claim theorems -/

/-- C1, counterexample: on the empty Arena, a transaction whose callback
inserts one value and then reports failure is rolled back by
`with_transaction`, with the failure propagated unchanged — but the
resulting Arena is NOT identical to the pre-transaction Arena: the freshly
allocated slot stays behind as a vacant slot and its key is left on the
free list, so slot contents and free-list order differ from the
pre-transaction empty Arena. -/
theorem with_transaction_rollback_not_identical :
    with_transaction_fail (new : StableVec Nat) [TxOp.insert 42] (7 : Nat) =
      .ok (⟨[none], [0]⟩, 7) ∧
    (⟨[none], [0]⟩ : StableVec Nat) ≠ (new : StableVec Nat) := by
  exact ⟨rfl, by decide⟩

/-- C1, amended: for every Arena satisfying the free-list invariant and
every batch of insert/remove/insert_at/push_back mutations performed
through a transaction that runs without a panic, the rollback performed by
`with_transaction` on failure succeeds, propagates the failure value
unchanged, and leaves the Arena equal to the pre-transaction Arena under
the Arena's own `PartialEq` (prefix comparison); furthermore
(`RollbackRel`) every pre-existing slot holds exactly its old contents,
slots allocated during the transaction remain as trailing vacant slots,
and the free list holds exactly the old free keys plus the freshly
allocated keys (order may differ). -/
theorem with_transaction_rollback_restores {E : Type} [DecidableEq T]
    (s : StableVec T) (ops : List (TxOp T)) (e : E)
    (t : StableVec T) (log : List (UndoRec T))
    (hinv : Inv s) (hrun : runOps s ops = .ok (t, log)) :
    ∃ s', with_transaction_fail s ops e = .ok (s', e) ∧
      eq s' s = true ∧ RollbackRel s s' := by
  obtain ⟨s', hrb, hR⟩ := runOps_rollback ops s t log hinv hrun
  refine ⟨s', ?_, ?_, hR⟩
  · simp only [with_transaction_fail, hrun, except_bind_ok, hrb]
    rfl
  · apply eq_of_getElem?_agree
    intro i hi
    obtain ⟨hlen, hpre, -, -, -⟩ := hR
    exact hpre i (by omega)

/-- C1, witness: the amended theorem applied to the empty Arena and the
one-insert batch. -/
theorem with_transaction_rollback_restores_witness :
    ∃ s', with_transaction_fail (new : StableVec Nat) [TxOp.insert 42] (7 : Nat) =
        .ok (s', 7) ∧ eq s' (new : StableVec Nat) = true ∧
      RollbackRel (new : StableVec Nat) s' :=
  with_transaction_rollback_restores new [TxOp.insert 42] 7 ⟨[some 42], []⟩
    [UndoRec.removeKey 0] inv_new rfl

/-- C2: in every state reachable from the empty Arena by the public
operations, `len()` equals the number of allocated slots minus the free
list's length, and also equals the number of pairs `iter()` yields. -/
theorem len_invariant (s : StableVec T) (h : Reachable s) :
    s.len = s.slots.length - s.free_list.length ∧ s.len = (iter s).length := by
  have hinv := reachable_inv h
  exact ⟨rfl, by rw [iter_length, len_eq_keys_length hinv]⟩

/-- C2, witness: the invariant at the reachable state reached by one
insert. -/
theorem len_invariant_witness :
    (⟨[some 5], []⟩ : StableVec Nat).len =
        (⟨[some 5], []⟩ : StableVec Nat).slots.length -
          (⟨[some 5], []⟩ : StableVec Nat).free_list.length ∧
      (⟨[some 5], []⟩ : StableVec Nat).len =
        (iter (⟨[some 5], []⟩ : StableVec Nat)).length :=
  len_invariant ⟨[some 5], []⟩ (Reachable.insert Reachable.new rfl)

/-- C3: free slots are reused last-removed-first.  After `remove k1` and
then `remove k2` both succeed, the next two inserts return `k2` and then
`k1`; in general `insert` pops the most recently pushed free-list key when
the free list is non-empty (and that key is a valid slot index), and
otherwise appends a new slot whose key is the current size. -/
theorem insert_lifo_reuse (s : StableVec T) :
    (∀ (s1 s2 : StableVec T) (k1 k2 : Nat) (v1 v2 : T) (w w' : T),
      s.remove k1 = .ok (s1, some v1) → s1.remove k2 = .ok (s2, some v2) →
      ∃ s3 s4, s2.insert w = .ok (s3, k2) ∧ s3.insert w' = .ok (s4, k1)) ∧
    (∀ (fl : List Nat) (k : Nat) (v : T), s.free_list = fl ++ [k] →
      k < s.slots.length →
      s.insert v = .ok (⟨s.slots.set k (some v), fl⟩, k)) ∧
    (∀ v : T, s.free_list = [] →
      s.insert v = .ok (⟨s.slots ++ [some v], []⟩, s.slots.length)) := by
  refine ⟨?_, ?_, ?_⟩
  · intro s1 s2 k1 k2 v1 v2 w w' h1 h2
    obtain ⟨hsl1, rfl⟩ := remove_ok_some h1
    obtain ⟨hsl2, rfl⟩ := remove_ok_some h2
    have hk1 : k1 < s.slots.length := lt_of_getElem?_some hsl1
    have hk2 : k2 < s.slots.length := by
      have := lt_of_getElem?_some hsl2
      simpa using this
    have hne : k1 ≠ k2 := by
      intro hc
      subst hc
      rw [List.getElem?_set_self hk1] at hsl2
      simp at hsl2
    have hfl2 : ((s.free_list ++ [k1]) ++ [k2]).getLast? = some k2 :=
      List.getLast?_concat _
    have hslot2 : ((s.slots.set k1 none).set k2 none)[k2]? = some none :=
      List.getElem?_set_self (by simpa using hk2)
    have hslot1 : (((s.slots.set k1 none).set k2 none).set k2 (some w))[k1]? = some none := by
      rw [List.getElem?_set_ne (Ne.symm hne), List.getElem?_set_ne (Ne.symm hne)]
      exact List.getElem?_set_self hk1
    refine ⟨⟨((s.slots.set k1 none).set k2 none).set k2 (some w), s.free_list ++ [k1]⟩,
        ⟨(((s.slots.set k1 none).set k2 none).set k2 (some w)).set k1 (some w'),
          s.free_list⟩, ?_, ?_⟩
    · simp only [insert, hfl2, hslot2, List.dropLast_concat]
    · simp only [insert, List.getLast?_concat, hslot1, List.dropLast_concat]
  · intro fl k v hfl hk
    simp only [insert, hfl, List.getLast?_concat, List.getElem?_eq_getElem hk,
      List.dropLast_concat]
  · intro v hfl
    simp only [insert, hfl, List.getLast?_nil]

/-- C3, witness: removing keys 0 then 1 from a two-element Arena and
inserting twice returns keys 1 then 0. -/
theorem insert_lifo_reuse_witness :
    ∃ s3 s4, (⟨[none, none], [0, 1]⟩ : StableVec Nat).insert 7 = .ok (s3, 1) ∧
      s3.insert 8 = .ok (s4, 0) :=
  (insert_lifo_reuse ⟨[some 1, some 2], []⟩).1 ⟨[none, some 2], [0]⟩
    ⟨[none, none], [0, 1]⟩ 0 1 1 2 7 8 rfl rfl

/-- C4, counterexample: `remove` on an out-of-range key does NOT return
none — `self.slots[k]` panics with an index-out-of-bounds failure, so
`remove(0)` on the empty Arena (size 0) is fatal, contradicting the claim
that remove never fails fatally. -/
theorem remove_out_of_range_panics :
    (new : StableVec Nat).remove 0 = .error (.indexOutOfBounds 0 0) := rfl

/-- C4, amended: `remove(k)` on an in-range vacant slot returns none and
leaves the whole Arena — free list included — unchanged (no duplicate
push); but for `k ≥ size`, `remove` does not return none: it fails fatally
with the index-out-of-bounds panic naming `k`. -/
theorem remove_checked (s : StableVec T) (k : Nat) :
    (s.slots[k]? = some none → s.remove k = .ok (s, none)) ∧
    (s.slots.length ≤ k → s.remove k = .error (.indexOutOfBounds s.slots.length k)) := by
  constructor
  · intro hvac
    simp only [remove, hvac, Option.isSome_none, Bool.false_eq_true, if_false]
    rw [set_getElem?_self hvac]
  · intro hge
    simp only [remove, List.getElem?_eq_none hge]

/-- C4, witness: the amended behaviour at a one-slot Arena with a vacant
slot. -/
theorem remove_checked_witness :
    (⟨[none], [0]⟩ : StableVec Nat).remove 0 = .ok (⟨[none], [0]⟩, none) ∧
    (⟨[none], [0]⟩ : StableVec Nat).remove 3 = .error (.indexOutOfBounds 1 3) :=
  ⟨(remove_checked ⟨[none], [0]⟩ 0).1 rfl, (remove_checked ⟨[none], [0]⟩ 3).2 (by decide)⟩

/-- C5: `insert_at(k, v)` with `k ≥ size` fails fatally with the
index-out-of-bounds panic (the spec's InvalidKey condition) whose payload
names the offending key `k`; with `k < size` it does not fail and returns
the slot's previous contents. -/
theorem insert_at_invalid_key (s : StableVec T) (k : Nat) (v : T) :
    (s.slots.length ≤ k →
      s.insert_at k v = .error (.indexOutOfBounds s.slots.length k)) ∧
    (∀ h : k < s.slots.length,
      s.insert_at k v =
        .ok (⟨s.slots.set k (some v), s.free_list.erase k⟩, s.slots[k])) := by
  constructor
  · intro hge
    simp only [insert_at, List.getElem?_eq_none hge]
  · intro h
    simp only [insert_at, List.getElem?_eq_getElem h]

/-- C5, witness: an out-of-range `insert_at` panic naming key 5, and an
in-range `insert_at` returning the previous value. -/
theorem insert_at_invalid_key_witness :
    (⟨[some 1], []⟩ : StableVec Nat).insert_at 5 9 = .error (.indexOutOfBounds 1 5) ∧
    (⟨[some 1], []⟩ : StableVec Nat).insert_at 0 9 = .ok (⟨[some 9], []⟩, some 1) :=
  ⟨(insert_at_invalid_key ⟨[some 1], []⟩ 5 9).1 (by decide),
   (insert_at_invalid_key ⟨[some 1], []⟩ 0 9).2 (by decide)⟩

/-- C6: on an Arena satisfying the free-list invariant, `insert_at(k, v)`
at an in-range vacant key makes `get(k) = some v`, removes `k` from the
free list, and increases `len()` by one; an immediately following
`insert_at(k, v2)` returns `some v` and leaves `len()` unchanged. -/
theorem insert_at_roundtrip (s : StableVec T) (k : Nat) (v v2 : T)
    (hinv : Inv s) (hvac : s.slots[k]? = some none) :
    ∃ s1 s2, s.insert_at k v = .ok (s1, none) ∧
      s1.get k = some v ∧ k ∉ s1.free_list ∧ s1.len = s.len + 1 ∧
      s1.insert_at k v2 = .ok (s2, some v) ∧ s2.len = s1.len := by
  have hk : k < s.slots.length := lt_of_getElem?_some hvac
  have hkfl : k ∈ s.free_list := hinv.2.2 k hvac
  have hndfl := hinv.1
  refine ⟨⟨s.slots.set k (some v), s.free_list.erase k⟩,
      ⟨(s.slots.set k (some v)).set k (some v2), (s.free_list.erase k).erase k⟩,
      ?_, ?_, ?_, ?_, ?_, ?_⟩
  · simp only [insert_at, hvac]
  · unfold get
    rw [List.getElem?_set_self hk]
    rfl
  · intro hc
    exact ((hndfl.mem_erase_iff).mp hc).1 rfl
  · unfold len
    simp only [List.length_set]
    rw [List.length_erase_of_mem hkfl]
    have hle := free_list_length_le hinv
    have hpos := List.length_pos_of_mem hkfl
    omega
  · have hset : (s.slots.set k (some v))[k]? = some (some v) :=
      List.getElem?_set_self (by simpa using hk)
    simp only [insert_at, hset]
  · unfold len
    simp only [List.length_set]
    rw [List.erase_of_not_mem (fun hc => ((hndfl.mem_erase_iff).mp hc).1 rfl)]

/-- C6, witness: the round trip at the one-slot Arena with key 0 vacant. -/
theorem insert_at_roundtrip_witness :
    ∃ s1 s2, (⟨[none], [0]⟩ : StableVec Nat).insert_at 0 4 = .ok (s1, none) ∧
      s1.get 0 = some 4 ∧ 0 ∉ s1.free_list ∧
      s1.len = (⟨[none], [0]⟩ : StableVec Nat).len + 1 ∧
      s1.insert_at 0 9 = .ok (s2, some 4) ∧ s2.len = s1.len :=
  insert_at_roundtrip ⟨[none], [0]⟩ 0 4 9
    ⟨by decide, by decide, fun k hk => by
      match k with
      | 0 => simp
      | n + 1 => simp at hk⟩
    rfl

/-- C7: Arena equality compares only the overlapping prefix of the two
slot sequences — equal iff every paired position up to the shorter size is
both-vacant or both-occupied-with-equal-values — and in particular the
Arena built from [1,2,3] equals the Arena built from [1,2]. -/
theorem eq_compares_overlap [DecidableEq T] (a b : StableVec T) :
    (eq a b = true ↔
      ∀ i, i < min a.slots.length b.slots.length → a.slots[i]? = b.slots[i]?) ∧
    (∃ a3 a2 : StableVec Nat, fromList [1, 2, 3] = .ok a3 ∧ fromList [1, 2] = .ok a2 ∧
      eq a3 a2 = true) :=
  ⟨zip_all_eq_iff a.slots b.slots,
   ⟨⟨[some 1, some 2, some 3], []⟩, ⟨[some 1, some 2], []⟩, rfl, rfl, rfl⟩⟩

/-- C8: `drain_all()` yields exactly the previously occupied (key, value)
pairs in ascending key order, and afterwards the Arena has `len() = 0`,
size 0 and an empty free list. -/
theorem drain_all_spec (s : StableVec T) :
    (s.drain_all).1.len = 0 ∧ (s.drain_all).1.slots.length = 0 ∧
    (s.drain_all).1.free_list = [] ∧
    List.Pairwise (fun a b : Nat × T => a.1 < b.1) (s.drain_all).2 ∧
    (∀ k v, (k, v) ∈ (s.drain_all).2 ↔ s.slots[k]? = some (some v)) :=
  ⟨rfl, rfl, rfl, drain_pairs_sorted s, fun _ _ => mem_drain_pairs⟩

/-- C9: `keys()`, `values()` and `iter()` enumerate exactly the occupied
slots in ascending key order, and each pair of `iter()` couples an
occupied key with the value stored in that slot. -/
theorem iter_keys_values_occupied (s : StableVec T) :
    List.Pairwise (fun a b : Nat × T => a.1 < b.1) (iter s) ∧
    (∀ k v, (k, v) ∈ iter s ↔ s.slots[k]? = some (some v)) ∧
    s.keys = (iter s).map Prod.fst ∧ s.values = (iter s).map Prod.snd :=
  ⟨iter_pairwise s, fun _ _ => mem_iter, keys_eq_map_fst s, values_eq_map_snd s⟩

/-- C10: under the implemented equality the empty Arena compares equal to
every Arena in both orders, and the comparison is not transitive:
⟨[some 1]⟩ ~ new and new ~ ⟨[some 2]⟩ but ⟨[some 1]⟩ ≁ ⟨[some 2]⟩. -/
theorem eq_new_universal_not_transitive [DecidableEq T] :
    (∀ t : StableVec T, eq new t = true ∧ eq t new = true) ∧
    (eq (⟨[some 1], []⟩ : StableVec Nat) new = true ∧
     eq (new : StableVec Nat) ⟨[some 2], []⟩ = true ∧
     eq (⟨[some 1], []⟩ : StableVec Nat) ⟨[some 2], []⟩ = false) := by
  refine ⟨?_, by decide, by decide, by decide⟩
  intro t
  constructor
  · simp [eq, new]
  · simp [eq, new, List.zip_nil_right]

end StableVec
